import Mathlib

/-!
Verification of the unspent-output pool (`src/visor/blockdb/unspent.go`).

The Go file maintains an in-memory cache (a map from output hash to output
record, plus a cached XOR checksum) mirroring two durable bolt regions: the
output region (hash -> serialized record) and a meta region holding the
checksum under a fixed key.  We embed the data model and every operation the
claims mention as executable Lean functions and prove the claimed properties.

Modelling conventions:
- `cipher.SHA256` values are modelled as `Nat` (the 256-bit XOR is `Nat.xor`,
  whose zero element models the all-zero hash; XOR of 256-bit values never
  overflows, so no modulus is required).
- `coin.UxOut` is a record of its payload fields.  Its content-derived
  identity hash (`UxOut.Hash`, external cryptography) is modelled by an
  injective encoding of the fields, and `SnapshotHash` by a distinct digest.
- Go maps are modelled as association lists with unique keys; insertion
  overwrites, deletion removes, lookup returns an `Option`.
- The binary codec is external and assumed to be an exact
  serialize/deserialize pair (spec section 1), so the store holds records
  directly and decoding never fails in the model.
- bolt buckets inside the caller's transaction are modelled by a `Store`
  value threaded through the functions.
-/

namespace Unspent

/-- An unspent transaction output record (`coin.UxOut`): creation time,
block sequence, source transaction, owner address, coins and hours. -/
structure UxOut where
  time : Nat
  bkSeq : Nat
  srcTransaction : Nat
  address : Nat
  coins : Nat
  hours : Nat
deriving DecidableEq

/-- The content-derived identity hash of a record (`UxOut.Hash()`, external
cryptography); modelled as an injective encoding of the record's fields. -/
def UxOut.hash (u : UxOut) : Nat :=
  Nat.pair u.time (Nat.pair u.bkSeq (Nat.pair u.srcTransaction
    (Nat.pair u.address (Nat.pair u.coins u.hours))))

/-- The second digest of a record (`UxOut.SnapshotHash()`), used only for
checksum aggregation; a distinct digest of the same content. -/
def UxOut.snapshotHash (u : UxOut) : Nat :=
  2 * u.hash + 1

/-- A Go map from output hash to record (`map[string]coin.UxOut`, keyed by
`hash.Hex()`; `Hex` is injective so we key by the hash itself). -/
abbrev UxMap := List (Nat × UxOut)

/-- Map lookup (`m[k]`). -/
def mapGet (m : UxMap) (k : Nat) : Option UxOut :=
  match m with
  | [] => none
  | p :: t => if p.1 = k then some p.2 else mapGet t k

/-- Map deletion (`delete(m, k)`). -/
def mapDelete (m : UxMap) (k : Nat) : UxMap :=
  match m with
  | [] => []
  | p :: t => if p.1 = k then mapDelete t k else p :: mapDelete t k

/-- Map assignment (`m[k] = v`): overwrite any entry at `k`. -/
def mapInsert (m : UxMap) (k : Nat) (u : UxOut) : UxMap :=
  mapDelete m k ++ [(k, u)]

/-- The keys of a map. -/
def mapKeys (m : UxMap) : List Nat :=
  m.map Prod.fst

/-- The in-memory cache of `UnspentPool`: the pool map and the cached
checksum (`up.cache.pool`, `up.cache.uxhash`). -/
structure Cache where
  pool : UxMap
  uxhash : Nat
deriving DecidableEq

/-- The durable state visible through the caller's bolt transaction: the
output region (`unspent_pool` bucket) and the meta region's `xorhash` key
(`none` when the key is absent). -/
structure Store where
  outputs : UxMap
  meta : Option Nat
deriving DecidableEq

/-- `unspentMeta.getXorHash`: an absent key reads as the zero hash. -/
def getXorHash (s : Store) : Nat :=
  s.meta.getD 0

/-- `unspentMeta.setXorHash`. -/
def setXorHash (s : Store) (h : Nat) : Store :=
  { s with meta := some h }

/-- `uxOuts.get`: read a record from the output region. -/
def uxOutsGet (s : Store) (k : Nat) : Option UxOut :=
  mapGet s.outputs k

/-- `uxOuts.set`: write a record into the output region. -/
def uxOutsSet (s : Store) (k : Nat) (u : UxOut) : Store :=
  { s with outputs := mapInsert s.outputs k u }

/-- `uxOuts.delete`: remove a record from the output region. -/
def uxOutsDelete (s : Store) (k : Nat) : Store :=
  { s with outputs := mapDelete s.outputs k }

/-- `UnspentPool.Get`: cache lookup; absence is not an error. -/
def Get (c : Cache) (k : Nat) : Option UxOut :=
  mapGet c.pool k

/-- `UnspentPool.Contains`. -/
def Contains (c : Cache) (k : Nat) : Bool :=
  (mapGet c.pool k).isSome

/-- `UnspentPool.Len`. -/
def Len (c : Cache) : Nat :=
  c.pool.length

/-- `UnspentPool.GetAll`: returns the pool values together with the error
component, which the Go code always sets to `nil` (modelled as `none`). -/
def GetAll (c : Cache) : List UxOut × Option Nat :=
  (c.pool.map Prod.snd, none)

/-- `UnspentPool.GetUxHash`: the cached checksum. -/
def GetUxHash (c : Cache) : Nat :=
  c.uxhash

/-- `UnspentPool.getArray`: resolve each hash against the cache, failing with
the first hash that is absent (the Go error names that hash). -/
def getArray (c : Cache) : List Nat → Except Nat (List UxOut)
  | [] => Except.ok []
  | k :: t =>
    match mapGet c.pool k with
    | none => Except.error k
    | some ux =>
      match getArray c t with
      | Except.error e => Except.error e
      | Except.ok uxs => Except.ok (ux :: uxs)

/-- Mutex acquire/release events, used to model the lock discipline of the
public operations. -/
inductive LockEvent where
  | lock : LockEvent
  | unlock : LockEvent
deriving DecidableEq

/-- The loop body of `UnspentPool.Collides`: on a colliding hash the Go code
does `return true` while still holding the mutex (no unlock event); only the
fall-through path unlocks before `return false`. -/
def collidesLoop (c : Cache) : List Nat → List LockEvent × Bool
  | [] => ([LockEvent.unlock], false)
  | k :: t =>
    if (mapGet c.pool k).isSome then ([], true)
    else collidesLoop c t

/-- `UnspentPool.Collides` together with its trace of mutex events. -/
def Collides (c : Cache) (ks : List Nat) : List LockEvent × Bool :=
  (LockEvent.lock :: (collidesLoop c ks).1, (collidesLoop c ks).2)

/-- A trace is balanced when it releases the mutex as often as it acquires
it. -/
def lockBalanced (t : List LockEvent) : Bool :=
  t.count LockEvent.lock == t.count LockEvent.unlock

/-- A transaction of a block body: the input hashes it spends and the new
output records it creates. -/
structure Transaction where
  txIn : List Nat
  txOuts : List UxOut
deriving DecidableEq

/-- A block: the ordered transactions of its body. -/
structure Block where
  transactions : List Transaction
deriving DecidableEq

/-- Modelled from the spec: `coin.CreateUnspents` is outside `src/`; per the
spec (section 3) the pool "receives the already-materialized list of new
records per transaction", so the transaction carries its created records. -/
def createUnspents (txn : Transaction) : List UxOut :=
  txn.txOuts

/-- All input hashes of a block body, in order. -/
def blockInputs : List Transaction → List Nat
  | [] => []
  | t :: r => t.txIn ++ blockInputs r

/-- All created output records of a block body, in order. -/
def blockOutputs : List Transaction → List UxOut
  | [] => []
  | t :: r => createUnspents t ++ blockOutputs r

/-- The loop body of `UnspentPool.deleteWithTx`: an absent hash is skipped;
a present one XORs its snapshot hash into the meta value (read-modify-write)
and is deleted from the output region.  The running `uxHash` starts at the
zero hash. -/
def deleteWithTxAux (s : Store) (uxHash : Nat) : List Nat → Store × Nat
  | [] => (s, uxHash)
  | k :: t =>
    match uxOutsGet s k with
    | none => deleteWithTxAux s uxHash t
    | some ux =>
      deleteWithTxAux
        (uxOutsDelete (setXorHash s (getXorHash s ^^^ ux.snapshotHash)) k)
        (getXorHash s ^^^ ux.snapshotHash) t

/-- `UnspentPool.deleteWithTx`. -/
def deleteWithTx (s : Store) (ks : List Nat) : Store × Nat :=
  deleteWithTxAux s 0 ks

/-- `UnspentPool.addWithTx`: reject (error named by the hash) when the id is
already in the cache; otherwise XOR the snapshot hash into the meta value and
write the record into the output region, returning the updated checksum. -/
def addWithTx (c : Cache) (s : Store) (ux : UxOut) : Store × Except Nat Nat :=
  if Contains c ux.hash then (s, Except.error ux.hash)
  else
    (uxOutsSet (setXorHash s (getXorHash s ^^^ ux.snapshotHash)) ux.hash ux,
      Except.ok (getXorHash s ^^^ ux.snapshotHash))

/-- The inner add loop of `processBlock`: add each created record in order,
threading the store and the running `uxHash`, stopping at the first error. -/
def addLoop (c : Cache) (s : Store) (uxHash : Nat) : List UxOut → Except Nat (Store × Nat)
  | [] => Except.ok (s, uxHash)
  | ux :: t =>
    match (addWithTx c s ux).2 with
    | Except.error e => Except.error e
    | Except.ok h1 => addLoop c (addWithTx c s ux).1 h1 t

/-- The accumulator of `processBlock`'s transaction loop: the store seen
through the bolt transaction, the accumulated deleted and added records, and
the running `uxHash` variable (initially the zero hash). -/
structure LoopState where
  store : Store
  delUxs : List UxOut
  addUxs : List UxOut
  uxHash : Nat
deriving DecidableEq

/-- The transaction loop of `processBlock`: per transaction, resolve the
inputs against the cache, delete them from the store (the returned hash is
discarded, as in the Go code), then add the created outputs. -/
def processLoop (c : Cache) : List Transaction → LoopState → Except Nat LoopState
  | [], st => Except.ok st
  | txn :: rest, st =>
    match getArray c txn.txIn with
    | Except.error e => Except.error e
    | Except.ok uxs =>
      match addLoop c (deleteWithTx st.store txn.txIn).1 st.uxHash (createUnspents txn) with
      | Except.error e => Except.error e
      | Except.ok pr =>
        processLoop c rest ⟨pr.1, st.delUxs ++ uxs, st.addUxs ++ createUnspents txn, pr.2⟩

/-- `UnspentPool.deleteUxFromCache`. -/
def deleteUxFromCache (c : Cache) (uxs : List UxOut) : Cache :=
  { c with pool := uxs.foldl (fun m ux => mapDelete m ux.hash) c.pool }

/-- `UnspentPool.addUxToCache`. -/
def addUxToCache (c : Cache) (uxs : List UxOut) : Cache :=
  { c with pool := uxs.foldl (fun m ux => mapInsert m ux.hash ux) c.pool }

/-- `UnspentPool.updateUxHashInCache`. -/
def updateUxHashInCache (c : Cache) (h : Nat) : Cache :=
  { c with uxhash := h }

/-- The undo closure returned by `processBlock`: the captured deleted and
added records and the pre-application cached checksum. -/
structure Undo where
  delUxs : List UxOut
  addUxs : List UxOut
  oldUxHash : Nat
deriving DecidableEq

/-- Invoking the undo closure: delete the added records from the cache,
re-add the deleted records, restore the captured checksum. -/
def applyUndo (u : Undo) (c : Cache) : Cache :=
  updateUxHashInCache (addUxToCache (deleteUxFromCache c u.addUxs) u.delUxs) u.oldUxHash

/-- `UnspentPool.processBlock`: run the transaction loop against the store;
on success mutate the cache (delete the accumulated deleted records, insert
the accumulated added records, set the cached checksum to the final `uxHash`
of the loop) and return the undo closure.  On any error the cache is not
touched; the caller discards the bolt transaction. -/
def processBlock (b : Block) (c : Cache) (s : Store) : (Cache × Store) × Except Nat Undo :=
  match processLoop c b.transactions ⟨s, [], [], 0⟩ with
  | Except.error e => ((c, s), Except.error e)
  | Except.ok st =>
    ((updateUxHashInCache (addUxToCache (deleteUxFromCache c st.delUxs) st.addUxs) st.uxHash,
        st.store),
      Except.ok ⟨st.delUxs, st.addUxs, c.uxhash⟩)

/-- `UnspentPool.syncCache`, run by `NewUnspentPool`: populate the cache from
a full scan of the output region and read the meta checksum (absent key reads
as zero). -/
def syncCache (s : Store) : Cache :=
  { pool := s.outputs.foldl (fun m p => mapInsert m p.1 p.2) [],
    uxhash := getXorHash s }

/-- `NewUnspentPool`: the cache constructed from a durable store. -/
def NewUnspentPool (s : Store) : Cache :=
  syncCache s

/-- The XOR of the snapshot hashes of a list of records. -/
def xorSnapshots (l : List UxOut) : Nat :=
  l.foldl (fun a u => a ^^^ u.snapshotHash) 0

/-- Well-formedness of a pool map, maintained by the code: keys are unique
and every entry is stored under its record's hash. -/
def cacheWF (m : UxMap) : Prop :=
  (mapKeys m).Nodup ∧ ∀ p ∈ m, p.1 = p.2.hash

instance (m : UxMap) : Decidable (cacheWF m) := by
  unfold cacheWF
  infer_instance

/-- The last record of a list whose hash is `k` — the one whose insertion
wins when a list of records is folded into a map. -/
def lastWithKey : List UxOut → Nat → Option UxOut
  | [], _ => none
  | ux :: t, k =>
    match lastWithKey t k with
    | some v => some v
    | none => if ux.hash = k then some ux else none

/-- Concrete records used in witnesses and counterexamples. -/
def uxA : UxOut :=
  ⟨0, 0, 0, 0, 0, 1⟩

def uxB : UxOut :=
  ⟨0, 0, 0, 0, 0, 2⟩

def uxC : UxOut :=
  ⟨0, 0, 0, 0, 0, 3⟩

def uxD : UxOut :=
  ⟨0, 0, 0, 0, 0, 4⟩

def uxE : UxOut :=
  ⟨0, 0, 0, 0, 0, 5⟩

/-- The empty cache. -/
def emptyCache : Cache :=
  ⟨[], 0⟩

/-- The empty store (no outputs, checksum key absent). -/
def emptyStore : Store :=
  ⟨[], none⟩

/-- A consistent pool holding records `uxA` and `uxB`. -/
def cacheAB : Cache :=
  ⟨[(uxA.hash, uxA), (uxB.hash, uxB)], uxA.snapshotHash ^^^ uxB.snapshotHash⟩

/-- The matching durable store for `cacheAB`. -/
def storeAB : Store :=
  ⟨[(uxA.hash, uxA), (uxB.hash, uxB)], some (uxA.snapshotHash ^^^ uxB.snapshotHash)⟩

/-- A block whose single transaction spends `uxA` and creates no outputs. -/
def blockSpendA : Block :=
  ⟨[⟨[uxA.hash], []⟩]⟩

/-- A block whose single transaction lists the input `uxA.hash` twice and
creates no outputs. -/
def blockDoubleSpendA : Block :=
  ⟨[⟨[uxA.hash, uxA.hash], []⟩]⟩

/-- A block whose single transaction creates the same record twice. -/
def blockDupAdd : Block :=
  ⟨[⟨[], [uxD, uxD]⟩]⟩

/-- A block whose single transaction spends an absent id. -/
def blockMissingInput : Block :=
  ⟨[⟨[7], []⟩]⟩

/-- A block whose single transaction spends `uxA` and creates `uxC`. -/
def blockSpendACreateC : Block :=
  ⟨[⟨[uxA.hash], [uxC]⟩]⟩

/-- The undo closure produced by applying `blockSpendACreateC` to
`cacheAB`/`storeAB`. -/
def undoAC : Undo :=
  ⟨[uxA], [uxC], uxA.snapshotHash ^^^ uxB.snapshotHash⟩

/-- A pool holding only `uxE`, used for the `Collides` lock trace. -/
def cacheE : Cache :=
  ⟨[(uxE.hash, uxE)], uxE.snapshotHash⟩

/-- A pool holding only `uxD`, used for the duplicate-insert witness. -/
def cacheD : Cache :=
  ⟨[(uxD.hash, uxD)], uxD.snapshotHash⟩

theorem mapGet_eq_none_iff (m : UxMap) (k : Nat) :
    mapGet m k = none ↔ k ∉ mapKeys m := by
  induction m with
  | nil => simp [mapGet, mapKeys]
  | cons p t ih =>
    simp only [mapKeys, List.map_cons, List.mem_cons, not_or]
    by_cases h : p.1 = k
    · simp only [mapGet, if_pos h]
      constructor
      · intro hc
        exact absurd hc (Option.some_ne_none _)
      · intro hc
        exact absurd h.symm hc.1
    · simp only [mapGet, if_neg h]
      rw [ih, mapKeys]
      constructor
      · intro hn
        exact ⟨fun e => h e.symm, hn⟩
      · intro hn
        exact hn.2

theorem mapGet_isSome_iff (m : UxMap) (k : Nat) :
    (mapGet m k).isSome = true ↔ k ∈ mapKeys m := by
  constructor
  · intro h
    by_contra hc
    rw [← mapGet_eq_none_iff] at hc
    rw [hc] at h
    simp at h
  · intro h
    cases hg : mapGet m k with
    | none => exact absurd ((mapGet_eq_none_iff m k).mp hg) (by simp [h])
    | some v => simp [hg]

theorem mapGet_mem (m : UxMap) (k : Nat) (v : UxOut) (h : mapGet m k = some v) :
    (k, v) ∈ m := by
  induction m with
  | nil => simp [mapGet] at h
  | cons p t ih =>
    by_cases hk : p.1 = k
    · simp only [mapGet, if_pos hk] at h
      cases h
      rw [← hk]
      simp
    · simp only [mapGet, if_neg hk] at h
      exact List.mem_cons_of_mem _ (ih h)

theorem mapGet_of_mem (m : UxMap) (k : Nat) (v : UxOut)
    (hnd : (mapKeys m).Nodup) (h : (k, v) ∈ m) : mapGet m k = some v := by
  induction m with
  | nil => simp at h
  | cons p t ih =>
    have hnd' : p.1 ∉ mapKeys t ∧ (mapKeys t).Nodup := by
      simpa [mapKeys, List.nodup_cons] using hnd
    rcases List.mem_cons.mp h with h1 | h1
    · rw [← h1]
      simp [mapGet]
    · have hk : p.1 ≠ k := by
        intro e
        exact hnd'.1 (e ▸ List.mem_map_of_mem Prod.fst h1)
      simp only [mapGet, if_neg hk]
      exact ih hnd'.2 h1

theorem mapDelete_of_get_none (m : UxMap) (k : Nat) (h : mapGet m k = none) :
    mapDelete m k = m := by
  induction m with
  | nil => rfl
  | cons p t ih =>
    by_cases hk : p.1 = k
    · simp [mapGet, hk] at h
    · simp only [mapGet, if_neg hk] at h
      simp [mapDelete, hk, ih h]

theorem mapGet_mapDelete (m : UxMap) (k k' : Nat) :
    mapGet (mapDelete m k) k' = if k' = k then none else mapGet m k' := by
  induction m with
  | nil => simp [mapDelete, mapGet]
  | cons p t ih =>
    by_cases h1 : p.1 = k
    · simp only [mapDelete, if_pos h1, ih]
      by_cases h2 : k' = k
      · simp [h2]
      · have hp : p.1 ≠ k' := fun e => h2 (by rw [← e, h1])
        simp [h2, mapGet, hp]
    · simp only [mapDelete, if_neg h1, mapGet, ih]
      by_cases h2 : p.1 = k'
      · have hk : k' ≠ k := fun e => h1 (by rw [h2, e])
        simp [h2, hk]
      · simp [h2]

theorem mapGet_append (a b : UxMap) (k : Nat) :
    mapGet (a ++ b) k =
      match mapGet a k with
      | some v => some v
      | none => mapGet b k := by
  induction a with
  | nil => simp [mapGet]
  | cons p t ih =>
    by_cases h : p.1 = k <;> simp [mapGet, h, ih]

theorem mapGet_mapInsert (m : UxMap) (k : Nat) (u : UxOut) (k' : Nat) :
    mapGet (mapInsert m k u) k' = if k' = k then some u else mapGet m k' := by
  rw [mapInsert, mapGet_append, mapGet_mapDelete]
  by_cases h : k' = k
  · simp [h, mapGet]
  · have hkk : ¬k = k' := fun e => h e.symm
    simp only [if_neg h]
    cases hg : mapGet m k' <;> simp [mapGet, hkk]

theorem mapKeys_mapDelete_sublist (m : UxMap) (k : Nat) :
    (mapKeys (mapDelete m k)).Sublist (mapKeys m) := by
  induction m with
  | nil => simp [mapDelete, mapKeys]
  | cons p t ih =>
    by_cases h : p.1 = k
    · simp only [mapDelete, if_pos h, mapKeys, List.map_cons]
      exact ih.cons _
    · simp only [mapDelete, if_neg h, mapKeys, List.map_cons]
      exact ih.cons₂ _

theorem nodup_keys_mapDelete (m : UxMap) (k : Nat) (h : (mapKeys m).Nodup) :
    (mapKeys (mapDelete m k)).Nodup :=
  List.Nodup.sublist (mapKeys_mapDelete_sublist m k) h

theorem not_mem_keys_mapDelete (m : UxMap) (k : Nat) :
    k ∉ mapKeys (mapDelete m k) := by
  intro h
  have h2 := (mapGet_isSome_iff (mapDelete m k) k).mpr h
  rw [mapGet_mapDelete] at h2
  simp at h2

theorem nodup_keys_mapInsert (m : UxMap) (k : Nat) (u : UxOut)
    (h : (mapKeys m).Nodup) : (mapKeys (mapInsert m k u)).Nodup := by
  have h1 := nodup_keys_mapDelete m k h
  have h2 := not_mem_keys_mapDelete m k
  rw [mapInsert, mapKeys, List.map_append]
  refine List.Nodup.append ?_ ?_ ?_
  · exact h1
  · simp
  · intro a ha hb
    simp at hb
    rw [hb] at ha
    exact h2 ha

theorem length_mapDelete (m : UxMap) (k : Nat) (hnd : (mapKeys m).Nodup)
    (h : (mapGet m k).isSome = true) : (mapDelete m k).length + 1 = m.length := by
  induction m with
  | nil => simp [mapGet] at h
  | cons p t ih =>
    have hnd' : p.1 ∉ mapKeys t ∧ (mapKeys t).Nodup := by
      simpa [mapKeys, List.nodup_cons] using hnd
    by_cases hk : p.1 = k
    · have hnone : mapGet t k = none := by
        rw [mapGet_eq_none_iff, ← hk]
        exact hnd'.1
      simp [mapDelete, hk, mapDelete_of_get_none t k hnone]
    · have h' : (mapGet t k).isSome = true := by
        simpa [mapGet, hk] using h
      simp only [mapDelete, if_neg hk, List.length_cons]
      have := ih hnd'.2 h'
      omega

theorem length_mapInsert_of_get_none (m : UxMap) (k : Nat) (u : UxOut)
    (h : mapGet m k = none) : (mapInsert m k u).length = m.length + 1 := by
  rw [mapInsert, mapDelete_of_get_none m k h]
  simp

theorem mem_of_mem_mapDelete (m : UxMap) (k : Nat) (p : Nat × UxOut)
    (h : p ∈ mapDelete m k) : p ∈ m := by
  induction m with
  | nil => simp [mapDelete] at h
  | cons q t ih =>
    by_cases hk : q.1 = k
    · simp only [mapDelete, if_pos hk] at h
      exact List.mem_cons_of_mem _ (ih h)
    · simp only [mapDelete, if_neg hk] at h
      rcases List.mem_cons.mp h with h1 | h1
      · simp [h1]
      · exact List.mem_cons_of_mem _ (ih h1)

theorem mem_of_mem_mapInsert (m : UxMap) (k : Nat) (u : UxOut) (p : Nat × UxOut)
    (h : p ∈ mapInsert m k u) : p ∈ m ∨ p = (k, u) := by
  rw [mapInsert] at h
  rcases List.mem_append.mp h with h1 | h1
  · exact Or.inl (mem_of_mem_mapDelete m k p h1)
  · simp at h1
    exact Or.inr h1

theorem lastWithKey_eq_none_iff (l : List UxOut) (k : Nat) :
    lastWithKey l k = none ↔ (l.any fun ux => ux.hash == k) = false := by
  induction l with
  | nil => simp [lastWithKey]
  | cons ux t ih =>
    rw [lastWithKey]
    cases h2 : lastWithKey t k with
    | some v =>
      rw [h2] at ih
      simp only [List.any_cons, Bool.or_eq_false_iff]
      constructor
      · intro hc
        exact absurd hc (Option.some_ne_none _)
      · intro hc
        exact absurd (ih.mpr hc.2) (Option.some_ne_none _)
    | none =>
      rw [h2] at ih
      by_cases h : ux.hash = k
      · simp [h]
      · have hb : (ux.hash == k) = false := by simp [h]
        rw [if_neg h]
        simp only [List.any_cons, hb, Bool.false_or]
        constructor
        · intro _
          exact ih.mp rfl
        · intro _
          trivial

theorem lastWithKey_eq_some (l : List UxOut) (k : Nat) (v : UxOut)
    (h : lastWithKey l k = some v) : v ∈ l ∧ v.hash = k := by
  induction l with
  | nil => simp [lastWithKey] at h
  | cons ux t ih =>
    rw [lastWithKey] at h
    cases h2 : lastWithKey t k with
    | some w =>
      rw [h2] at h
      cases h
      rcases ih h2 with ⟨hm, hk⟩
      exact ⟨List.mem_cons_of_mem _ hm, hk⟩
    | none =>
      rw [h2] at h
      by_cases hk : ux.hash = k
      · rw [if_pos hk] at h
        cases h
        exact ⟨List.mem_cons_self _ _, hk⟩
      · rw [if_neg hk] at h
        exact Option.noConfusion h

theorem lastWithKey_isSome_of_mem (l : List UxOut) (k : Nat) (v : UxOut)
    (hv : v ∈ l) (hk : v.hash = k) : (lastWithKey l k).isSome = true := by
  induction l with
  | nil => simp at hv
  | cons ux t ih =>
    rw [lastWithKey]
    cases h2 : lastWithKey t k with
    | some w => simp
    | none =>
      rcases List.mem_cons.mp hv with h | h
      · rw [← h]
        simp [hk]
      · have := ih h
        rw [h2] at this
        simp at this

theorem mapGet_foldl_delete (l : List UxOut) (m : UxMap) (k : Nat) :
    mapGet (l.foldl (fun m ux => mapDelete m ux.hash) m) k =
      if l.any (fun ux => ux.hash == k) then none else mapGet m k := by
  induction l generalizing m with
  | nil => simp
  | cons ux t ih =>
    rw [List.foldl_cons, ih]
    by_cases h : ux.hash = k
    · by_cases h2 : (t.any fun ux => ux.hash == k) = true <;>
        simp [h, h2, mapGet_mapDelete]
    · have hk : ¬k = ux.hash := fun e => h e.symm
      by_cases h2 : (t.any fun ux => ux.hash == k) = true <;>
        simp [h, h2, mapGet_mapDelete, hk]

theorem mapGet_foldl_insert (l : List UxOut) (m : UxMap) (k : Nat) :
    mapGet (l.foldl (fun m ux => mapInsert m ux.hash ux) m) k =
      match lastWithKey l k with
      | some v => some v
      | none => mapGet m k := by
  induction l generalizing m with
  | nil => simp [lastWithKey]
  | cons ux t ih =>
    rw [List.foldl_cons, ih, lastWithKey]
    cases h2 : lastWithKey t k with
    | some w => simp
    | none =>
      by_cases h : ux.hash = k
      · simp [h, mapGet_mapInsert]
      · have hk : ¬k = ux.hash := fun e => h e.symm
        simp [h, mapGet_mapInsert, hk]

theorem nodup_keys_foldl_delete (l : List UxOut) (m : UxMap)
    (h : (mapKeys m).Nodup) :
    (mapKeys (l.foldl (fun m ux => mapDelete m ux.hash) m)).Nodup := by
  induction l generalizing m with
  | nil => simpa
  | cons ux t ih =>
    rw [List.foldl_cons]
    exact ih _ (nodup_keys_mapDelete _ _ h)

theorem nodup_keys_foldl_insert (l : List UxOut) (m : UxMap)
    (h : (mapKeys m).Nodup) :
    (mapKeys (l.foldl (fun m ux => mapInsert m ux.hash ux) m)).Nodup := by
  induction l generalizing m with
  | nil => simpa
  | cons ux t ih =>
    rw [List.foldl_cons]
    exact ih _ (nodup_keys_mapInsert _ _ _ h)

theorem consistent_foldl_delete (l : List UxOut) (m : UxMap)
    (h : ∀ p ∈ m, p.1 = p.2.hash) :
    ∀ p ∈ l.foldl (fun m ux => mapDelete m ux.hash) m, p.1 = p.2.hash := by
  induction l generalizing m with
  | nil =>
    rw [List.foldl_nil]
    exact h
  | cons ux t ih =>
    rw [List.foldl_cons]
    refine ih _ ?_
    intro p hp
    exact h p (mem_of_mem_mapDelete _ _ _ hp)

theorem consistent_foldl_insert (l : List UxOut) (m : UxMap)
    (h : ∀ p ∈ m, p.1 = p.2.hash) :
    ∀ p ∈ l.foldl (fun m ux => mapInsert m ux.hash ux) m, p.1 = p.2.hash := by
  induction l generalizing m with
  | nil =>
    rw [List.foldl_nil]
    exact h
  | cons ux t ih =>
    rw [List.foldl_cons]
    refine ih _ ?_
    intro p hp
    rcases mem_of_mem_mapInsert _ _ _ _ hp with h1 | h1
    · exact h p h1
    · rw [h1]

theorem length_foldl_delete (l : List UxOut) (m : UxMap)
    (hnd : (l.map UxOut.hash).Nodup)
    (hk : (mapKeys m).Nodup)
    (hmem : ∀ ux ∈ l, (mapGet m ux.hash).isSome = true) :
    (l.foldl (fun m ux => mapDelete m ux.hash) m).length + l.length = m.length := by
  induction l generalizing m with
  | nil => simp
  | cons ux t ih =>
    rw [List.foldl_cons]
    have hnd' : ux.hash ∉ t.map UxOut.hash ∧ (t.map UxOut.hash).Nodup := by
      simpa [List.nodup_cons] using hnd
    have h1 : (mapDelete m ux.hash).length + 1 = m.length :=
      length_mapDelete m ux.hash hk (hmem ux (List.mem_cons_self _ _))
    have h2 : ∀ v ∈ t, (mapGet (mapDelete m ux.hash) v.hash).isSome = true := by
      intro v hv
      rw [mapGet_mapDelete]
      have hne : v.hash ≠ ux.hash := by
        intro e
        exact hnd'.1 (e ▸ List.mem_map_of_mem UxOut.hash hv)
      rw [if_neg hne]
      exact hmem v (List.mem_cons_of_mem _ hv)
    have h3 := ih (mapDelete m ux.hash) hnd'.2 (nodup_keys_mapDelete _ _ hk) h2
    simp only [List.length_cons]
    omega

theorem length_foldl_insert (l : List UxOut) (m : UxMap)
    (hnd : (l.map UxOut.hash).Nodup)
    (hmem : ∀ ux ∈ l, mapGet m ux.hash = none) :
    (l.foldl (fun m ux => mapInsert m ux.hash ux) m).length = m.length + l.length := by
  induction l generalizing m with
  | nil => simp
  | cons ux t ih =>
    rw [List.foldl_cons]
    have hnd' : ux.hash ∉ t.map UxOut.hash ∧ (t.map UxOut.hash).Nodup := by
      simpa [List.nodup_cons] using hnd
    have h1 : (mapInsert m ux.hash ux).length = m.length + 1 :=
      length_mapInsert_of_get_none m ux.hash ux (hmem ux (List.mem_cons_self _ _))
    have h2 : ∀ v ∈ t, mapGet (mapInsert m ux.hash ux) v.hash = none := by
      intro v hv
      rw [mapGet_mapInsert]
      have hne : v.hash ≠ ux.hash := by
        intro e
        exact hnd'.1 (e ▸ List.mem_map_of_mem UxOut.hash hv)
      rw [if_neg hne]
      exact hmem v (List.mem_cons_of_mem _ hv)
    have h3 := ih (mapInsert m ux.hash ux) hnd'.2 h2
    simp only [List.length_cons]
    omega

theorem mem_values_iff (m : UxMap) (hnd : (mapKeys m).Nodup)
    (hcons : ∀ p ∈ m, p.1 = p.2.hash) (ux : UxOut) :
    ux ∈ m.map Prod.snd ↔ mapGet m ux.hash = some ux := by
  constructor
  · intro h
    rcases List.mem_map.mp h with ⟨p, hp, he⟩
    have h1 : p.1 = ux.hash := by
      rw [hcons p hp, he]
    have h2 : (p.1, p.2) ∈ m := by
      simpa using hp
    rw [← h1, mapGet_of_mem m p.1 p.2 hnd h2, he]
  · intro h
    exact List.mem_map.mpr ⟨(ux.hash, ux), mapGet_mem _ _ _ h, rfl⟩

theorem length_eq_of_mapGet_eq (m1 m2 : UxMap)
    (h1 : (mapKeys m1).Nodup) (h2 : (mapKeys m2).Nodup)
    (h : ∀ k, mapGet m1 k = mapGet m2 k) : m1.length = m2.length := by
  have hm : ∀ k, k ∈ mapKeys m1 ↔ k ∈ mapKeys m2 := by
    intro k
    rw [← mapGet_isSome_iff, ← mapGet_isSome_iff, h]
  have hp : (mapKeys m1).Perm (mapKeys m2) :=
    (List.perm_ext_iff_of_nodup h1 h2).mpr hm
  have := hp.length_eq
  simpa [mapKeys] using this

theorem getArray_ok (c : Cache) (ks : List Nat) (uxs : List UxOut)
    (hcons : ∀ p ∈ c.pool, p.1 = p.2.hash)
    (h : getArray c ks = Except.ok uxs) :
    uxs.map UxOut.hash = ks ∧ ∀ ux ∈ uxs, mapGet c.pool ux.hash = some ux := by
  induction ks generalizing uxs with
  | nil =>
    rw [getArray] at h
    cases h
    simp
  | cons k t ih =>
    rw [getArray] at h
    cases hg : mapGet c.pool k with
    | none =>
      rw [hg] at h
      exact Except.noConfusion h
    | some ux =>
      rw [hg] at h
      cases hr : getArray c t with
      | error e =>
        rw [hr] at h
        exact Except.noConfusion h
      | ok rest =>
        rw [hr] at h
        cases h
        have hk : k = ux.hash := hcons (k, ux) (mapGet_mem _ _ _ hg)
        rcases ih rest hr with ⟨ha, hb⟩
        refine ⟨by simp [ha, ← hk], ?_⟩
        intro v hv
        rcases List.mem_cons.mp hv with h1 | h1
        · rw [h1, ← hk]
          exact hg
        · exact hb v h1

theorem addLoop_absent (c : Cache) (s : Store) (h0 : Nat) (l : List UxOut)
    (r : Store × Nat) (h : addLoop c s h0 l = Except.ok r) :
    ∀ ux ∈ l, mapGet c.pool ux.hash = none := by
  induction l generalizing s h0 with
  | nil => simp
  | cons ux t ih =>
    rw [addLoop] at h
    by_cases hc : Contains c ux.hash
    · rw [addWithTx, if_pos hc] at h
      exact Except.noConfusion h
    · simp only [addWithTx, if_neg hc] at h
      intro v hv
      rcases List.mem_cons.mp hv with h1 | h1
      · rw [h1]
        rw [Contains] at hc
        cases hg : mapGet c.pool ux.hash with
        | none => rfl
        | some w =>
          rw [hg] at hc
          simp at hc
      · exact ih _ _ h v h1

theorem processLoop_spec (c : Cache) (hcons : ∀ p ∈ c.pool, p.1 = p.2.hash)
    (txns : List Transaction) :
    ∀ (st st' : LoopState),
    processLoop c txns st = Except.ok st' →
    (∀ ux ∈ st.delUxs, mapGet c.pool ux.hash = some ux) →
    (∀ ux ∈ st.addUxs, mapGet c.pool ux.hash = none) →
    ((∀ ux ∈ st'.delUxs, mapGet c.pool ux.hash = some ux) ∧
     (∀ ux ∈ st'.addUxs, mapGet c.pool ux.hash = none) ∧
     st'.delUxs.map UxOut.hash = st.delUxs.map UxOut.hash ++ blockInputs txns ∧
     st'.addUxs = st.addUxs ++ blockOutputs txns) := by
  induction txns with
  | nil =>
    intro st st' h hd ha
    rw [processLoop] at h
    cases h
    exact ⟨hd, ha, by simp [blockInputs], by simp [blockOutputs]⟩
  | cons txn rest ih =>
    intro st st' h hd ha
    rw [processLoop] at h
    cases hg : getArray c txn.txIn with
    | error e =>
      rw [hg] at h
      exact Except.noConfusion h
    | ok uxs =>
      rw [hg] at h
      cases hal : addLoop c (deleteWithTx st.store txn.txIn).1 st.uxHash (createUnspents txn) with
      | error e =>
        rw [hal] at h
        exact Except.noConfusion h
      | ok pr =>
        rw [hal] at h
        rcases getArray_ok c txn.txIn uxs hcons hg with ⟨hmap, hmem⟩
        have hadds := addLoop_absent c _ _ _ _ hal
        have hd' : ∀ ux ∈ st.delUxs ++ uxs, mapGet c.pool ux.hash = some ux := by
          intro v hv
          rcases List.mem_append.mp hv with h1 | h1
          · exact hd v h1
          · exact hmem v h1
        have ha' : ∀ ux ∈ st.addUxs ++ createUnspents txn, mapGet c.pool ux.hash = none := by
          intro v hv
          rcases List.mem_append.mp hv with h1 | h1
          · exact ha v h1
          · exact hadds v h1
        rcases ih _ _ h hd' ha' with ⟨c1, c2, c3, c4⟩
        refine ⟨c1, c2, ?_, ?_⟩
        · rw [c3]
          simp [blockInputs, hmap]
        · rw [c4]
          simp [blockOutputs]

theorem foldl_insert_eq_append (l m : UxMap)
    (hnd : (mapKeys l).Nodup) (hdis : ∀ p ∈ l, mapGet m p.1 = none) :
    l.foldl (fun m p => mapInsert m p.1 p.2) m = m ++ l := by
  induction l generalizing m with
  | nil => simp
  | cons p t ih =>
    rw [List.foldl_cons]
    have hnd' : p.1 ∉ mapKeys t ∧ (mapKeys t).Nodup := by
      simpa [mapKeys, List.nodup_cons] using hnd
    have h1 : mapGet m p.1 = none := hdis p (List.mem_cons_self _ _)
    have h2 : mapInsert m p.1 p.2 = m ++ [p] := by
      rw [mapInsert, mapDelete_of_get_none m p.1 h1]
    have h3 : ∀ q ∈ t, mapGet (mapInsert m p.1 p.2) q.1 = none := by
      intro q hq
      rw [mapGet_mapInsert]
      have hne : q.1 ≠ p.1 := by
        intro e
        exact hnd'.1 (e ▸ List.mem_map_of_mem Prod.fst hq)
      rw [if_neg hne]
      exact hdis q (List.mem_cons_of_mem _ hq)
    rw [ih _ hnd'.2 h3, h2]
    simp

/-- Claim C1: the claim (cached checksum equals the XOR of snapshot hashes
over the cache after every successful apply, including blocks whose
transactions create no new outputs) fails on the code.  Starting from a
consistent pool holding `uxA` and `uxB`, applying a block that spends `uxA`
and creates no outputs succeeds, but the cached checksum is set to the
zero hash (the `uxHash` variable is only assigned by `addWithTx`; the value
returned by `deleteWithTx` is discarded), while the XOR over the remaining
cache — and the durable meta value — is `uxB.snapshotHash ≠ 0`. -/
theorem C1_cached_checksum_diverges_on_outputless_block :
    ((processBlock blockSpendA cacheAB storeAB).2).isOk = true ∧
    GetUxHash ((processBlock blockSpendA cacheAB storeAB).1.1) = 0 ∧
    xorSnapshots (GetAll ((processBlock blockSpendA cacheAB storeAB).1.1)).1 =
      uxB.snapshotHash ∧
    uxB.snapshotHash ≠ 0 ∧
    GetUxHash ((processBlock blockSpendA cacheAB storeAB).1.1) ≠
      xorSnapshots (GetAll ((processBlock blockSpendA cacheAB storeAB).1.1)).1 ∧
    getXorHash ((processBlock blockSpendA cacheAB storeAB).1.2) = uxB.snapshotHash := by
  decide

/-- Claim C3 (counterexample): an add whose id duplicates an output added
earlier within the same block application is NOT rejected — the duplicate
check consults only the cache, which is not updated until after the loop.
Applying a block whose transaction creates the same record twice succeeds,
leaves one record in the output region, and silently cancels the durable
checksum back to zero. -/
theorem C3_counterexample_intrablock_duplicate_accepted :
    ((processBlock blockDupAdd emptyCache emptyStore).2).isOk = true ∧
    (processBlock blockDupAdd emptyCache emptyStore).1.2.outputs.length = 1 ∧
    getXorHash ((processBlock blockDupAdd emptyCache emptyStore).1.2) = 0 ∧
    uxD.snapshotHash ≠ 0 := by
  decide

/-- Claim C3 (amended): inserting a record whose id is already present in
the pool cache always fails with the duplicate error naming the id, and
leaves the durable store unchanged (the cache is never touched by
`addWithTx`); an id that merely duplicates an output added earlier in the
same block application is not rejected, because the cache is only updated
after the store phase. -/
theorem C3_duplicate_insert_rejected (c : Cache) (s : Store) (ux : UxOut)
    (h : Contains c ux.hash = true) :
    addWithTx c s ux = (s, Except.error ux.hash) := by
  rw [addWithTx, if_pos h]

/-- Witness for C3: a concrete pool containing `uxD` rejects a second
insert of `uxD` and leaves the store unchanged. -/
theorem C3_witness :
    Contains cacheD uxD.hash = true ∧
    addWithTx cacheD emptyStore uxD = (emptyStore, Except.error uxD.hash) :=
  ⟨by decide, C3_duplicate_insert_rejected cacheD emptyStore uxD (by decide)⟩

/-- Claim C4: whenever `processBlock` returns an error, the cache (mapping
and cached checksum) is exactly what it was before the call — the
cache-mutation phase runs only after the whole store loop succeeded. -/
theorem C4_error_leaves_cache_unchanged (b : Block) (c : Cache) (s : Store) (e : Nat)
    (h : (processBlock b c s).2 = Except.error e) :
    (processBlock b c s).1.1 = c := by
  cases hp : processLoop c b.transactions ⟨s, [], [], 0⟩ with
  | error e2 =>
    rw [processBlock, hp]
  | ok st =>
    rw [processBlock, hp] at h
    exact Except.noConfusion h

/-- Witness for C4: a block spending an absent id fails and leaves the
cache untouched. -/
theorem C4_witness :
    (processBlock blockMissingInput emptyCache emptyStore).2 = Except.error 7 ∧
    (processBlock blockMissingInput emptyCache emptyStore).1.1 = emptyCache :=
  ⟨rfl, C4_error_leaves_cache_unchanged blockMissingInput emptyCache emptyStore 7 rfl⟩

/-- Claim C8: during the per-transaction deletion step, an input id absent
from the output region is silently skipped — no store write, no checksum
update, no error for that id — and the loop continues with the rest. -/
theorem C8_delete_skips_absent (s : Store) (acc k : Nat) (ks : List Nat)
    (h : uxOutsGet s k = none) :
    deleteWithTxAux s acc (k :: ks) = deleteWithTxAux s acc ks ∧
    deleteWithTx s (k :: ks) = deleteWithTx s ks := by
  have h1 : ∀ a : Nat, deleteWithTxAux s a (k :: ks) = deleteWithTxAux s a ks := by
    intro a
    rw [deleteWithTxAux, h]
  exact ⟨h1 acc, by rw [deleteWithTx, deleteWithTx, h1 0]⟩

/-- Witness for C8: deleting with an absent head id equals deleting the
tail only. -/
theorem C8_witness :
    deleteWithTxAux storeAB 0 (9 :: [uxA.hash]) = deleteWithTxAux storeAB 0 [uxA.hash] ∧
    deleteWithTx storeAB (9 :: [uxA.hash]) = deleteWithTx storeAB [uxA.hash] :=
  C8_delete_skips_absent storeAB 0 9 [uxA.hash] (by decide)

/-- Claim C9: the claim (every public query releases the lock on every
path, in particular `Collides` on its `true` path) fails on the code: when a
colliding id is found, `Collides` returns `true` with only the acquire event
in its trace — the mutex is still held, so the trace is unbalanced. -/
theorem C9_collides_keeps_lock_on_collision :
    (Collides cacheE [uxE.hash]).2 = true ∧
    (Collides cacheE [uxE.hash]).1 = [LockEvent.lock] ∧
    lockBalanced (Collides cacheE [uxE.hash]).1 = false := by
  decide

/-- Claim C10: `GetAll` never fails — the error component of its result is
`none` for every cache state, despite the fallible signature. -/
theorem C10_getAll_never_fails (c : Cache) : (GetAll c).2 = none :=
  rfl

/-- Claim C6: constructing a pool from a durable store yields a cache whose
contents are exactly the output region's records and whose cached checksum
is the meta region's checksum value, with an absent key read as zero. -/
theorem C6_construction_reconciles (s : Store) (hnd : (mapKeys s.outputs).Nodup) :
    (NewUnspentPool s).pool = s.outputs ∧
    GetUxHash (NewUnspentPool s) = s.meta.getD 0 ∧
    (s.meta = none → GetUxHash (NewUnspentPool s) = 0) := by
  refine ⟨?_, rfl, ?_⟩
  · show s.outputs.foldl (fun m p => mapInsert m p.1 p.2) [] = s.outputs
    rw [foldl_insert_eq_append s.outputs [] hnd (fun p _ => rfl)]
    simp
  · intro h
    show getXorHash s = 0
    rw [getXorHash, h]
    rfl

/-- Witness for C6: construction from the concrete store `storeAB`, and
from the empty store with the checksum key absent. -/
theorem C6_witness :
    (NewUnspentPool storeAB).pool = storeAB.outputs ∧
    GetUxHash (NewUnspentPool storeAB) = storeAB.meta.getD 0 ∧
    GetUxHash (NewUnspentPool emptyStore) = 0 :=
  ⟨(C6_construction_reconciles storeAB (by decide)).1,
    (C6_construction_reconciles storeAB (by decide)).2.1,
    (C6_construction_reconciles emptyStore (by decide)).2.2 rfl⟩

/-- Claim C7: `getArray` returns the records of all requested ids when every
id is present, and otherwise fails naming the first id in the list that is
absent from the cache (the error constructor carries no records). -/
theorem C7_getArray_first_missing (c : Cache) (ks : List Nat) :
    ((∀ k ∈ ks, Contains c k = true) →
      getArray c ks = Except.ok (ks.filterMap (fun k => mapGet c.pool k))) ∧
    (∀ e, ks.find? (fun k => !(Contains c k)) = some e →
      getArray c ks = Except.error e) := by
  induction ks with
  | nil =>
    constructor
    · intro _
      rfl
    · intro e he
      simp at he
  | cons k t ih =>
    constructor
    · intro hall
      have hk := hall k (List.mem_cons_self _ _)
      rw [Contains] at hk
      cases hg : mapGet c.pool k with
      | none =>
        rw [hg] at hk
        simp at hk
      | some ux =>
        rw [getArray, hg, ih.1 (fun k2 hk2 => hall k2 (List.mem_cons_of_mem _ hk2))]
        simp [List.filterMap_cons, hg]
    · intro e he
      cases hg : mapGet c.pool k with
      | none =>
        have hpk : (!(Contains c k)) = true := by simp [Contains, hg]
        rw [List.find?_cons_of_pos (p := fun k => !(Contains c k)) t hpk] at he
        cases he
        rw [getArray, hg]
      | some ux =>
        have hpk : ¬(!(Contains c k)) = true := by simp [Contains, hg]
        rw [List.find?_cons_of_neg (p := fun k => !(Contains c k)) t hpk] at he
        rw [getArray, hg, ih.2 e he]

/-- Witness for C7: in the concrete pool `cacheAB`, a fully-present batch
succeeds and a batch with absent ids fails naming the first absent id. -/
theorem C7_witness :
    getArray cacheAB [uxA.hash, uxB.hash] =
      Except.ok ([uxA.hash, uxB.hash].filterMap (fun k => mapGet cacheAB.pool k)) ∧
    getArray cacheAB [uxA.hash, 9, 10] = Except.error 9 :=
  ⟨(C7_getArray_first_missing cacheAB [uxA.hash, uxB.hash]).1 (by decide),
    (C7_getArray_first_missing cacheAB [uxA.hash, 9, 10]).2 9 (by decide)⟩

theorem processBlock_ok_elim (b : Block) (c : Cache) (s : Store) (u : Undo)
    (hok : (processBlock b c s).2 = Except.ok u) :
    ∃ st : LoopState,
      processLoop c b.transactions ⟨s, [], [], 0⟩ = Except.ok st ∧
      u = ⟨st.delUxs, st.addUxs, c.uxhash⟩ ∧
      (processBlock b c s).1.1 =
        updateUxHashInCache (addUxToCache (deleteUxFromCache c st.delUxs) st.addUxs)
          st.uxHash := by
  cases hp : processLoop c b.transactions ⟨s, [], [], 0⟩ with
  | error e =>
    rw [processBlock, hp] at hok
    exact Except.noConfusion hok
  | ok st =>
    rw [processBlock, hp] at hok
    refine ⟨st, rfl, ?_, ?_⟩
    · injection hok with h
      exact h.symm
    · rw [processBlock, hp]

theorem undo_pointwise (c : Cache) (dels adds : List UxOut)
    (hD : ∀ ux ∈ dels, mapGet c.pool ux.hash = some ux)
    (hA : ∀ ux ∈ adds, mapGet c.pool ux.hash = none) (k : Nat) :
    mapGet (dels.foldl (fun m ux => mapInsert m ux.hash ux)
      (adds.foldl (fun m ux => mapDelete m ux.hash)
        (adds.foldl (fun m ux => mapInsert m ux.hash ux)
          (dels.foldl (fun m ux => mapDelete m ux.hash) c.pool)))) k
    = mapGet c.pool k := by
  rw [mapGet_foldl_insert]
  cases hL : lastWithKey dels k with
  | some v =>
    rcases lastWithKey_eq_some _ _ _ hL with ⟨hv, hk⟩
    rw [← hk]
    exact (hD v hv).symm
  | none =>
    have hdel_any : (dels.any fun ux => ux.hash == k) = false :=
      (lastWithKey_eq_none_iff _ _).mp hL
    rw [mapGet_foldl_delete]
    by_cases hA2 : (adds.any fun ux => ux.hash == k) = true
    · rw [if_pos hA2]
      rcases List.any_eq_true.mp hA2 with ⟨v, hv, he⟩
      have hvk : v.hash = k := by simpa using he
      rw [← hvk]
      exact (hA v hv).symm
    · have hA2' : (adds.any fun ux => ux.hash == k) = false := by
        simpa using hA2
      rw [if_neg (by simp [hA2'])]
      rw [mapGet_foldl_insert, (lastWithKey_eq_none_iff adds k).mpr hA2']
      rw [mapGet_foldl_delete, if_neg (by simp [hdel_any])]

/-- Claim C2: for every block whose inputs all exist, applying the block and
then invoking the returned undo action restores every observable of the
cache — `Get`, `Contains`, membership in `GetAll`, `Len`, and `GetUxHash` —
to its exact pre-application value. -/
theorem C2_undo_restores_cache (b : Block) (c : Cache) (s : Store) (u : Undo)
    (hwf : cacheWF c.pool)
    (hok : (processBlock b c s).2 = Except.ok u) :
    (∀ k, Get (applyUndo u (processBlock b c s).1.1) k = Get c k) ∧
    (∀ k, Contains (applyUndo u (processBlock b c s).1.1) k = Contains c k) ∧
    (∀ ux, ux ∈ (GetAll (applyUndo u (processBlock b c s).1.1)).1 ↔
      ux ∈ (GetAll c).1) ∧
    Len (applyUndo u (processBlock b c s).1.1) = Len c ∧
    GetUxHash (applyUndo u (processBlock b c s).1.1) = GetUxHash c := by
  obtain ⟨hnd, hcons⟩ := hwf
  rcases processBlock_ok_elim b c s u hok with ⟨st, hp, hu, hc1⟩
  rcases processLoop_spec c hcons b.transactions _ _ hp (by simp) (by simp)
    with ⟨hD, hA, _, _⟩
  rw [hu, hc1]
  have hpt : ∀ k, mapGet (applyUndo ⟨st.delUxs, st.addUxs, c.uxhash⟩
      (updateUxHashInCache (addUxToCache (deleteUxFromCache c st.delUxs) st.addUxs)
        st.uxHash)).pool k = mapGet c.pool k :=
    undo_pointwise c st.delUxs st.addUxs hD hA
  have hnd2 : (mapKeys (applyUndo ⟨st.delUxs, st.addUxs, c.uxhash⟩
      (updateUxHashInCache (addUxToCache (deleteUxFromCache c st.delUxs) st.addUxs)
        st.uxHash)).pool).Nodup :=
    nodup_keys_foldl_insert _ _ (nodup_keys_foldl_delete _ _
      (nodup_keys_foldl_insert _ _ (nodup_keys_foldl_delete _ _ hnd)))
  have hcons2 : ∀ p ∈ (applyUndo ⟨st.delUxs, st.addUxs, c.uxhash⟩
      (updateUxHashInCache (addUxToCache (deleteUxFromCache c st.delUxs) st.addUxs)
        st.uxHash)).pool, p.1 = p.2.hash :=
    consistent_foldl_insert _ _ (consistent_foldl_delete _ _
      (consistent_foldl_insert _ _ (consistent_foldl_delete _ _ hcons)))
  refine ⟨fun k => hpt k, fun k => ?_, fun ux => ?_, ?_, rfl⟩
  · show (mapGet (applyUndo ⟨st.delUxs, st.addUxs, c.uxhash⟩
        (updateUxHashInCache (addUxToCache (deleteUxFromCache c st.delUxs) st.addUxs)
          st.uxHash)).pool k).isSome = (mapGet c.pool k).isSome
    rw [hpt k]
  · show ux ∈ List.map Prod.snd (applyUndo ⟨st.delUxs, st.addUxs, c.uxhash⟩
        (updateUxHashInCache (addUxToCache (deleteUxFromCache c st.delUxs) st.addUxs)
          st.uxHash)).pool ↔ ux ∈ List.map Prod.snd c.pool
    rw [mem_values_iff _ hnd2 hcons2, mem_values_iff _ hnd hcons, hpt]
  · show ((applyUndo ⟨st.delUxs, st.addUxs, c.uxhash⟩
        (updateUxHashInCache (addUxToCache (deleteUxFromCache c st.delUxs) st.addUxs)
          st.uxHash)).pool).length = c.pool.length
    exact length_eq_of_mapGet_eq _ _ hnd2 hnd hpt

/-- Witness for C2: applying the block that spends `uxA` and creates `uxC`
to the concrete pool `cacheAB` and then undoing restores the observables. -/
theorem C2_witness :
    Get (applyUndo undoAC (processBlock blockSpendACreateC cacheAB storeAB).1.1) uxA.hash
      = Get cacheAB uxA.hash ∧
    Contains (applyUndo undoAC (processBlock blockSpendACreateC cacheAB storeAB).1.1)
      uxC.hash = Contains cacheAB uxC.hash ∧
    Len (applyUndo undoAC (processBlock blockSpendACreateC cacheAB storeAB).1.1)
      = Len cacheAB ∧
    GetUxHash (applyUndo undoAC (processBlock blockSpendACreateC cacheAB storeAB).1.1)
      = GetUxHash cacheAB := by
  have h := C2_undo_restores_cache blockSpendACreateC cacheAB storeAB undoAC (by decide) rfl
  exact ⟨h.1 uxA.hash, h.2.1 uxC.hash, h.2.2.2.1, h.2.2.2.2⟩

/-- Claim C5 (counterexample): for a successfully applied block that lists
the same existing input id twice (and creates nothing), `Len` does not
change by the number of created outputs minus the number of spent inputs:
the pool shrinks by one while the block names two spent inputs. -/
theorem C5_counterexample_repeated_input :
    ((processBlock blockDoubleSpendA cacheAB storeAB).2).isOk = true ∧
    Len (processBlock blockDoubleSpendA cacheAB storeAB).1.1
        + (blockInputs blockDoubleSpendA.transactions).length
      ≠ Len cacheAB + (blockOutputs blockDoubleSpendA.transactions).length := by
  decide

/-- Claim C5 (amended): after a successful apply of a block whose spent
input ids are pairwise distinct and whose created output ids are pairwise
distinct, every input id is absent, every created output is present, and
`Len` changes by the number of created outputs minus the number of spent
inputs. -/
theorem C5_apply_block_effects (b : Block) (c : Cache) (s : Store)
    (hwf : cacheWF c.pool)
    (hin : (blockInputs b.transactions).Nodup)
    (hout : ((blockOutputs b.transactions).map UxOut.hash).Nodup)
    (hok : ((processBlock b c s).2).isOk = true) :
    (∀ k ∈ blockInputs b.transactions, Contains (processBlock b c s).1.1 k = false) ∧
    (∀ ux ∈ blockOutputs b.transactions,
      Contains (processBlock b c s).1.1 ux.hash = true) ∧
    Len (processBlock b c s).1.1 + (blockInputs b.transactions).length
      = Len c + (blockOutputs b.transactions).length := by
  obtain ⟨hnd, hcons⟩ := hwf
  cases hp : processLoop c b.transactions ⟨s, [], [], 0⟩ with
  | error e =>
    rw [processBlock, hp] at hok
    exact Bool.noConfusion hok
  | ok st =>
    have hc1 : (processBlock b c s).1.1 =
        updateUxHashInCache (addUxToCache (deleteUxFromCache c st.delUxs) st.addUxs)
          st.uxHash := by
      rw [processBlock, hp]
    rcases processLoop_spec c hcons b.transactions _ _ hp (by simp) (by simp)
      with ⟨hD, hA, hmap, hadds⟩
    simp only [List.map_nil, List.nil_append] at hmap hadds
    rw [hc1]
    have habs : ∀ ux ∈ st.addUxs,
        mapGet (st.delUxs.foldl (fun m ux => mapDelete m ux.hash) c.pool) ux.hash = none := by
      intro ux hux
      rw [mapGet_foldl_delete]
      by_cases h2 : (st.delUxs.any fun v => v.hash == ux.hash) = true
      · rw [if_pos h2]
      · rw [if_neg (by simpa using h2)]
        exact hA ux hux
    refine ⟨?_, ?_, ?_⟩
    · intro k hk
      show (mapGet (st.addUxs.foldl (fun m ux => mapInsert m ux.hash ux)
        (st.delUxs.foldl (fun m ux => mapDelete m ux.hash) c.pool)) k).isSome = false
      rw [mapGet_foldl_insert]
      cases hL : lastWithKey st.addUxs k with
      | some v =>
        rcases lastWithKey_eq_some _ _ _ hL with ⟨hv, hvk⟩
        rcases List.mem_map.mp (hmap ▸ hk) with ⟨d, hd, hdk⟩
        have h1 : mapGet c.pool k = some d := by
          rw [← hdk]
          exact hD d hd
        have h2 : mapGet c.pool k = none := by
          rw [← hvk]
          exact hA v hv
        rw [h1] at h2
        exact Option.noConfusion h2
      | none =>
        rw [mapGet_foldl_delete]
        have hany : (st.delUxs.any fun ux => ux.hash == k) = true := by
          rcases List.mem_map.mp (hmap ▸ hk) with ⟨d, hd, hdk⟩
          exact List.any_eq_true.mpr ⟨d, hd, by simp [hdk]⟩
        rw [if_pos hany]
        rfl
    · intro ux hux
      show (mapGet (st.addUxs.foldl (fun m ux => mapInsert m ux.hash ux)
        (st.delUxs.foldl (fun m ux => mapDelete m ux.hash) c.pool)) ux.hash).isSome = true
      rw [mapGet_foldl_insert]
      have hm : ux ∈ st.addUxs := hadds ▸ hux
      have := lastWithKey_isSome_of_mem st.addUxs ux.hash ux hm rfl
      cases hL : lastWithKey st.addUxs ux.hash with
      | some v => rfl
      | none =>
        rw [hL] at this
        exact Bool.noConfusion this
    · have hlen1 : (st.delUxs.foldl (fun m ux => mapDelete m ux.hash) c.pool).length
          + st.delUxs.length = c.pool.length :=
        length_foldl_delete st.delUxs c.pool (by rw [hmap]; exact hin) hnd
          (fun ux hux => by rw [hD ux hux]; rfl)
      have hlen2 : (st.addUxs.foldl (fun m ux => mapInsert m ux.hash ux)
            (st.delUxs.foldl (fun m ux => mapDelete m ux.hash) c.pool)).length
          = (st.delUxs.foldl (fun m ux => mapDelete m ux.hash) c.pool).length
            + st.addUxs.length :=
        length_foldl_insert st.addUxs _ (by rw [hadds]; exact hout) habs
      have hleni : st.delUxs.length = (blockInputs b.transactions).length := by
        rw [← hmap, List.length_map]
      have hleno : st.addUxs.length = (blockOutputs b.transactions).length := by
        rw [hadds]
      show (st.addUxs.foldl (fun m ux => mapInsert m ux.hash ux)
          (st.delUxs.foldl (fun m ux => mapDelete m ux.hash) c.pool)).length
          + (blockInputs b.transactions).length
        = c.pool.length + (blockOutputs b.transactions).length
      omega

/-- Witness for C5: applying the block that spends `uxA` and creates `uxC`
to the concrete pool `cacheAB`. -/
theorem C5_witness :
    Contains (processBlock blockSpendACreateC cacheAB storeAB).1.1 uxA.hash = false ∧
    Contains (processBlock blockSpendACreateC cacheAB storeAB).1.1 uxC.hash = true ∧
    Len (processBlock blockSpendACreateC cacheAB storeAB).1.1
        + (blockInputs blockSpendACreateC.transactions).length
      = Len cacheAB + (blockOutputs blockSpendACreateC.transactions).length := by
  have h := C5_apply_block_effects blockSpendACreateC cacheAB storeAB (by decide)
    (by decide) (by decide) (by decide)
  exact ⟨h.1 uxA.hash (by decide), h.2.1 uxC (by decide), h.2.2⟩

end Unspent
